import Mathlib

/-!
Verification of the OpenPGP signing / armor / cleartext core
(`src/crypto/signature.js` with its embedded `encoding/base64` module, and
the cleartext signed-message module).  Each JavaScript function used by the
claims is shallowly embedded as an executable Lean definition; machine
integers are modelled as `Nat` with explicit masks exactly where the source
masks them.  External collaborators that are not part of the sources
(hashing, big-integer primitives, the packet writer) appear either as
explicit parameters or as definitions modelled from the specification and
marked as such.
-/

namespace OpenPGP

/-! ## Radix-64 codec (`s2r` / `r2s` from the base64 module)

`s2r` converts a byte array to radix-64 text, inserting a line break every
60 emitted characters (standard variant only) and `=` padding; `r2s`
converts back, silently skipping every character outside the active
alphabet.  The two 64-character alphabets are taken verbatim from the
source (`b64s`, `b64u`). -/

def b64s : List Char :=
  "ABCDEFGHIJKLMNOPQRSTUVWXYZabcdefghijklmnopqrstuvwxyz0123456789+/".data

def b64u : List Char :=
  "ABCDEFGHIJKLMNOPQRSTUVWXYZabcdefghijklmnopqrstuvwxyz0123456789-_".data

/-- JavaScript `b64.charAt(i)`: the `i`-th character of the active alphabet
(the source only ever calls it with `i < 64`, so the default is never
reached). -/
def b64charAt (u : Bool) (i : ℕ) : Char :=
  (if u then b64u else b64s).getD i '?'

/-- JavaScript `b64.indexOf(c)`: position of `c` in the active alphabet,
`none` when absent (source value `-1`). -/
def b64idx (u : Bool) (c : Char) : Option ℕ :=
  (if u then b64u else b64s).findIdx? (· = c)

/-- The conditional newline the source pushes after checking
`(l % 60) === 0 && !u`. -/
def nlIf (u : Bool) (l : ℕ) : List Char :=
  if l % 60 = 0 ∧ u = false then ['\n'] else []

/-- Code that runs after the encoding loop of `s2r`: emits the final partial
character, `=` padding and the line-break checks, exactly as in the
source. -/
def s2rTail (u : Bool) (a l s : ℕ) : List Char :=
  (if 0 < s then
    [b64charAt u a] ++ nlIf u (l + 1) ++ (if u then [] else ['='])
  else []) ++
  (if s = 1 ∧ u = false then nlIf u (l + 2) ++ ['='] else [])

/-- The encoding loop of `s2r`.  `a` is the pending-bits accumulator, `l`
the emitted-character counter used for line wrapping, `s ∈ {0,1,2}` the
position inside the current 3-byte group. -/
def s2rGo (u : Bool) : List ℕ → ℕ → ℕ → ℕ → List Char
  | [], a, l, s => s2rTail u a l s
  | c :: t, a, l, s =>
    if s = 0 then
      b64charAt u ((c >>> 2) &&& 63) ::
        (nlIf u (l + 1) ++ s2rGo u t ((c &&& 3) <<< 4) (l + 1) 1)
    else if s = 1 then
      b64charAt u (a ||| ((c >>> 4) &&& 15)) ::
        (nlIf u (l + 1) ++ s2rGo u t ((c &&& 15) <<< 2) (l + 1) 2)
    else
      b64charAt u (a ||| ((c >>> 6) &&& 3)) ::
        (nlIf u (l + 1) ++ (b64charAt u (c &&& 63) ::
          (nlIf u (l + 2) ++ s2rGo u t a (l + 2) 0)))

/-- `s2r(t, u)`: binary array to radix-64 string. -/
def s2r (t : List ℕ) (u : Bool) : String :=
  String.mk (s2rGo u t 0 0 0)

/-- The decoding loop of `r2s`.  `s ∈ {0,2,4,6}` cycles through
`(s + 2) & 7`, `a` is the partial-byte accumulator; characters outside the
alphabet are skipped. -/
def r2sGo (u : Bool) : List Char → ℕ → ℕ → List ℕ
  | [], _, _ => []
  | ch :: t, s, a =>
    match b64idx u ch with
    | none => r2sGo u t s a
    | some c =>
      let s2 := (s + 2) &&& 7
      let a2 := (c <<< s2) &&& 255
      if s = 0 then r2sGo u t s2 a2
      else (a ||| ((c >>> (6 - s)) &&& 255)) :: r2sGo u t s2 a2

/-- `r2s(t, u)`: radix-64 string to binary array. -/
def r2s (t : String) (u : Bool) : List ℕ :=
  r2sGo u t.data 0 0

/-! ### Closed forms used to reason about `s2r`

`countedChars` lists the characters whose emission bumps the line counter
`l`; `withNl` re-inserts the line break the source pushes whenever the
counter reaches a multiple of 60. -/

/-- Characters of the standard encoding that participate in the 60-column
counter: the data characters plus, for a 1-byte-remainder group, the first
`=` pad (the second `=` of such a group and the single `=` of a
2-byte-remainder group are emitted after the last counter check). -/
def countedChars (u : Bool) : List ℕ → ℕ → ℕ → List Char
  | [], a, s =>
    if s = 0 then []
    else if u then [b64charAt u a]
    else if s = 1 then [b64charAt u a, '='] else [b64charAt u a]
  | c :: t, a, s =>
    if s = 0 then
      b64charAt u ((c >>> 2) &&& 63) :: countedChars u t ((c &&& 3) <<< 4) 1
    else if s = 1 then
      b64charAt u (a ||| ((c >>> 4) &&& 15)) :: countedChars u t ((c &&& 15) <<< 2) 2
    else
      b64charAt u (a ||| ((c >>> 6) &&& 3)) :: b64charAt u (c &&& 63) ::
        countedChars u t a 0

/-- The trailing character of the standard encoding that is emitted after
the last line-break check: the `=` closing a partial final group (`m` is
the group phase plus the number of remaining input bytes). -/
def trailingPad (m : ℕ) : List Char :=
  if m % 3 = 0 then [] else ['=']

/-- The data characters alone (no `=` padding): what both variants emit
from the input bits. -/
def dataChars (u : Bool) : List ℕ → ℕ → ℕ → List Char
  | [], a, s =>
    if s = 0 then [] else [b64charAt u a]
  | c :: t, a, s =>
    if s = 0 then
      b64charAt u ((c >>> 2) &&& 63) :: dataChars u t ((c &&& 3) <<< 4) 1
    else if s = 1 then
      b64charAt u (a ||| ((c >>> 4) &&& 15)) :: dataChars u t ((c &&& 15) <<< 2) 2
    else
      b64charAt u (a ||| ((c >>> 6) &&& 3)) :: b64charAt u (c &&& 63) ::
        dataChars u t a 0

/-- The complete `=` padding of the standard encoding as a function of
`length mod 3`: none for a full final group, two `=` when one input byte
remains in the final group, one `=` when two remain. -/
def padOf (r : ℕ) : List Char :=
  if r = 0 then [] else if r = 1 then ['=', '='] else ['=']

/-- Increment the last entry of a length list (effect on the line lengths
of appending one non-newline character). -/
def incLast : List ℕ → List ℕ
  | [] => [1]
  | [x] => [x + 1]
  | x :: y :: t => x :: incLast (y :: t)

/-- Insert `'\n'` after each character whose running count is a multiple
of 60, starting the count at `l`. -/
def withNl : ℕ → List Char → List Char
  | _, [] => []
  | l, c :: t =>
    c :: (if (l + 1) % 60 = 0 then '\n' :: withNl (l + 1) t else withNl (l + 1) t)

/-- Split a character list at every `'\n'` (the lines of the armored
body). -/
def splitNl : List Char → List (List Char)
  | [] => [[]]
  | c :: t =>
    let r := splitNl t
    if c = '\n' then [] :: r
    else
      match r with
      | h :: rs => (c :: h) :: rs
      | [] => [[c]]

/-- Lengths of the lines produced by breaking `n` characters with `r`
characters left on the current line and 60 on every later line. -/
def buildLens (n r : ℕ) : List ℕ :=
  if h : n < r ∨ r = 0 then [n] else r :: buildLens (n - r) 60
termination_by n
decreasing_by simp at h; omega

/-! ## Cleartext normalization (the `CleartextMessage` constructor)

The constructor stores
`text.replace(/\r/g, '').replace(/[\t ]+\n/g, "\n").replace(/\n/g, "\r\n")`. -/

/-- First replace: remove every carriage return. -/
def stripCR (l : List Char) : List Char :=
  l.filter (· ≠ '\r')

/-- Second replace: delete every maximal run of tabs/spaces that stands
immediately before a line feed (`/[\t ]+\n/g → "\n"`). -/
def stripWsLf : List Char → List Char
  | [] => []
  | c :: t =>
    let r := stripWsLf t
    if (c = ' ' ∨ c = '\t') ∧ r.head? = some '\n' then r else c :: r

/-- Third replace: expand every line feed to CRLF. -/
def lfToCrlf (l : List Char) : List Char :=
  l.flatMap fun c => if c = '\n' then ['\r', '\n'] else [c]

/-- The canonical text stored by the `CleartextMessage` constructor. -/
def normalizeText (s : String) : String :=
  String.mk (lfToCrlf (stripWsLf (stripCR s.data)))

/-! ## Cleartext message data model

Signature packets and keys are modelled with the fields the cleartext
module reads; the cryptographic entry points it delegates to
(`signaturePacket.sign`, `signature.verify`) are external collaborators and
appear as explicit oracle parameters. -/

/-- A signature packet as populated by `signDetached` and consumed by
`verifyDetached` (fields set or read by the cleartext module). -/
structure SigPacket where
  signatureType : ℕ
  hashAlgorithm : ℕ
  publicKeyAlgorithm : ℕ
  issuerKeyId : ℕ
  sigData : ℕ
deriving DecidableEq, Repr

/-- Key packet data read during signing/verification. -/
structure SigningKeyPacket where
  algorithm : ℕ
  isDecrypted : Bool
  keyId : ℕ
deriving DecidableEq, Repr

/-- A key from the external key module, reduced to what the cleartext
module observes; `primaryUserOk` is the outcome of the external
`verifyPrimaryUser()` step the signing path awaits. -/
structure Key where
  isPublic : Bool
  primaryUserOk : Bool
  keyPackets : List SigningKeyPacket
deriving DecidableEq, Repr

/-- Modelled from the spec: the external key lookup
`getSigningKeyPacket(issuerKeyId?, acceptExpired) -> KeyMaterial | absent`
(the key module itself is not part of the sources).  With an issuer key id
it returns the unique packet matching that id; without one it returns the
key's signing packet when present. -/
def getSigningKeyPacket (k : Key) (issuer : Option ℕ) : Option SigningKeyPacket :=
  match issuer with
  | none => k.keyPackets.head?
  | some kid => k.keyPackets.find? fun p => p.keyId = kid

/-- The `CleartextMessage` state: canonical text plus detached signature
packet list. -/
structure CleartextMessage where
  text : String
  signature : List SigPacket
deriving DecidableEq, Repr

/-- The `CleartextMessage(text, signature)` constructor: normalizes the
text to canonical CRLF form and stores the signature set. -/
def mkCleartextMessage (text : String) (signature : List SigPacket) :
    CleartextMessage :=
  { text := normalizeText text, signature := signature }

/-- `CleartextMessage.prototype.signDetached`: per private key, reject
public keys, missing signing-key packets and encrypted private material,
then build a text signature packet with the configured hash algorithm.  The
cryptographic signing step `signaturePacket.sign(keyPacket, literal)` is
external and is given by `sigOracle`.  The per-key operations are joined in
input-key order (`Promise.all` over `privateKeys.map`). -/
def signOneKey (cfgHash : ℕ) (sigOracle : SigningKeyPacket → String → ℕ)
    (text : String) (k : Key) : Except String SigPacket :=
  if k.isPublic then .error "Need private key for signing"
  else if k.primaryUserOk = false then .error "Primary user verification failed"
  else
    match getSigningKeyPacket k none with
    | none => .error "Could not find valid key packet for signing in key"
    | some kp =>
      if kp.isDecrypted = false then .error "Private key is not decrypted."
      else .ok { signatureType := 1, hashAlgorithm := cfgHash,
                 publicKeyAlgorithm := kp.algorithm, issuerKeyId := kp.keyId,
                 sigData := sigOracle kp text }

def signDetached (cfgHash : ℕ) (sigOracle : SigningKeyPacket → String → ℕ)
    (text : String) : List Key → Except String (List SigPacket)
  | [] => .ok []
  | k :: t =>
    match signOneKey cfgHash sigOracle text k with
    | .error e => .error e
    | .ok sp =>
      match signDetached cfgHash sigOracle text t with
      | .error e => .error e
      | .ok rest => .ok (sp :: rest)

/-- `CleartextMessage.prototype.sign`: returns a fresh message built from
the receiver's text and the new detached signature set. -/
def cleartextSign (cfgHash : ℕ) (sigOracle : SigningKeyPacket → String → ℕ)
    (m : CleartextMessage) (privateKeys : List Key) :
    Except String CleartextMessage :=
  (signDetached cfgHash sigOracle m.text privateKeys).map fun sl =>
    mkCleartextMessage m.text sl

/-- The per-signer outcome emitted by `verifyDetached`: signer key id,
tri-state validity (`none` = no matching key, `some b` = cryptographic
outcome), and an echo of the signature packet. -/
structure VerifiedSig where
  keyid : ℕ
  valid : Option Bool
  sigpackets : List SigPacket
deriving DecidableEq, Repr

/-- The key-set scan of `verifyDetached` for one signature: every key is
asked for a signing-key packet matching the issuer key id, the last hit
winning (`keyPacket = result` inside `keys.map`). -/
def findIssuerKeyPacket (keys : List Key) (issuer : ℕ) : Option SigningKeyPacket :=
  keys.foldl
    (fun acc k =>
      match getSigningKeyPacket k (some issuer) with
      | some r => some r
      | none => acc)
    none

/-- `CleartextMessage.prototype.verifyDetached`: one `VerifiedSig` per
signature packet, in input order; validity is `none` when no supplied key
matches the issuer key id, otherwise the outcome of the external
`signature.verify(keyPacket, literal)` given by `oracle`.  The awaited
`key.verifyPrimaryUser()` of the verification path is modelled as
non-failing, following the spec's Verify step, which imposes no
primary-user requirement on lookup. -/
def verifyDetached (oracle : SigPacket → SigningKeyPacket → Bool)
    (sigs : List SigPacket) (keys : List Key) : List VerifiedSig :=
  sigs.map fun sig =>
    { keyid := sig.issuerKeyId,
      valid := (findIssuerKeyPacket keys sig.issuerKeyId).map fun kp => oracle sig kp,
      sigpackets := [sig] }

/-! ## Armor headers of a cleartext read (`verifyHeaders`) -/

/-- A packet as inspected by `verifyHeaders`: its tag and, for signature
packets (tag 2), the hash algorithm id. -/
structure Packet where
  tag : ℕ
  hashAlgorithm : ℕ
deriving DecidableEq, Repr

/-- Modelled from the spec: the `enums.hash` name table used by
`enums.write(enums.hash, name)` (the enums module is not part of the
sources; the spec names MD5 as id of the legacy default and SHA-256 etc.
as the usual digests). -/
def hashIdOfName : String → Option ℕ
  | "md5" => some 1
  | "sha1" => some 2
  | "ripemd" => some 3
  | "sha256" => some 8
  | "sha384" => some 9
  | "sha512" => some 10
  | "sha224" => some 11
  | _ => none

/-- Inverse table, `enums.read(enums.hash, id)`. -/
def hashNameOfId : ℕ → Option String
  | 1 => some "md5"
  | 2 => some "sha1"
  | 3 => some "ripemd"
  | 8 => some "sha256"
  | 9 => some "sha384"
  | 10 => some "sha512"
  | 11 => some "sha224"
  | _ => none

/-- JavaScript `String.prototype.toUpperCase()` on the ASCII names that
occur here. -/
def upperChar (c : Char) : Char :=
  if 'a' ≤ c ∧ c ≤ 'z' then Char.ofNat (c.toNat - 32) else c

/-- Uppercase a whole string. -/
def upperStr (s : String) : String :=
  String.mk (s.data.map upperChar)

/-- List-prefix test (used to model the regular-expression scan). -/
def isPfx : List Char → List Char → Bool
  | [], _ => true
  | _ :: _, [] => false
  | p :: ps, c :: cs => p = c && isPfx ps cs

/-- Substring test. -/
def hasSub (needle : List Char) : List Char → Bool
  | [] => needle.isEmpty
  | c :: t => isPfx needle (c :: t) || hasSub needle t

/-- JavaScript `header.match(/Hash: (.+)/)`: the regular expression is not
anchored, so it matches at the first position where the literal
`"Hash: "` occurs with at least one character after it, capturing the rest
of the line. -/
def findHashCapture : List Char → Option (List Char)
  | [] => none
  | c :: t =>
    if isPfx "Hash: ".data (c :: t) ∧ (c :: t).drop 6 ≠ [] then
      some ((c :: t).drop 6)
    else findHashCapture t

/-- JavaScript `\s` on the characters that occur in armor headers. -/
def isJsWs (c : Char) : Bool :=
  c = ' ' ∨ c = '\t' ∨ c = '\n' ∨ c = '\r' ∨ c = '\x0b' ∨ c = '\x0c'

/-- JavaScript `String.prototype.split(',')`. -/
def splitComma : List Char → List (List Char)
  | [] => [[]]
  | c :: t =>
    let r := splitComma t
    if c = ',' then [] :: r
    else
      match r with
      | h :: rs => (c :: h) :: rs
      | [] => [[c]]

/-- One iteration of the `headers.forEach` loop of `verifyHeaders`:
extract the `Hash:` capture (any other header line throws), strip
whitespace, split on commas, lower-case each name and translate it through
`enums.write` (unknown names throw). -/
def parseOneHeader (h : String) : Except String (List ℕ) :=
  match findHashCapture h.data with
  | none => .error "Only Hash header allowed in cleartext signed message"
  | some cap =>
    let cleaned := cap.filter fun c => ¬ isJsWs c
    (splitComma cleaned).mapM fun p =>
      match hashIdOfName (String.mk (p.map Char.toLower)) with
      | some hid => .ok hid
      | none => .error "Unknown hash algorithm in armor header"

/-- The whole `headers.forEach` loop: concatenation of the per-header
algorithm lists in header order, aborting at the first bad header. -/
def parseAllHeaders : List String → Except String (List ℕ)
  | [] => .ok []
  | h :: t =>
    match parseOneHeader h with
    | .error e => .error e
    | .ok ids =>
      match parseAllHeaders t with
      | .error e => .error e
      | .ok rest => .ok (ids ++ rest)

/-- `checkHashAlgos` from the source: every signature packet's hash
algorithm must occur in the given list. -/
def checkHashAlgos (packetlist : List Packet) (hashAlgos : List ℕ) : Bool :=
  packetlist.all fun p => p.tag != 2 || hashAlgos.contains p.hashAlgorithm

/-- `verifyHeaders(headers, packetlist)`: header parsing followed by the
MD5 legacy rule (no `Hash` header collected) and the mismatch rule. -/
def verifyHeaders (headers : List String) (packetlist : List Packet) :
    Except String Unit :=
  match parseAllHeaders headers with
  | .error e => .error e
  | .ok hashAlgos =>
    if hashAlgos.isEmpty ∧ checkHashAlgos packetlist [1] = false then
      .error "If no Hash header in cleartext signed message, then only MD5 signatures allowed"
    else if checkHashAlgos packetlist hashAlgos = false then
      .error "Hash algorithm mismatch in armor header and signature"
    else .ok ()

/-! ## Armor serialization of a cleartext message (`armor`) -/

/-- The body handed to `armor.encode(enums.armor.signed, body)`; the armor
transport module itself is an external collaborator, so the block is the
record the cleartext module builds: type tag 2 (`enums.armor.signed`), the
single `Hash` header value, the canonical text and the serialized packet
payload. -/
structure ArmorBlock where
  btype : ℕ
  hash : String
  text : String
  payload : List ℕ
deriving DecidableEq, Repr

/-- `CleartextMessage.prototype.armor`: the `Hash` header value is
`enums.read(enums.hash, config.prefer_hash_algorithm).toUpperCase()` — the
configured default hash algorithm, independent of the attached signature
packets.  The packet serializer `this.signature.packets.write()` is
external and given by `pw`. -/
def cleartextArmor (pw : List SigPacket → List ℕ) (cfgHash : ℕ)
    (m : CleartextMessage) : Except String ArmorBlock :=
  match hashNameOfId cfgHash with
  | none => .error "Invalid enum value."
  | some nm =>
    .ok { btype := 2, hash := upperStr nm, text := m.text,
          payload := pw m.signature }

/-! ## DSA signing as serialized by `sign` (algorithm 17) -/

/-- Base-256 digit extraction with explicit fuel (the fuel only bounds the
number of divisions; `beBytes` passes `n` itself, which always suffices). -/
def beBytesFuel : ℕ → ℕ → List ℕ
  | 0, _ => []
  | _ + 1, 0 => []
  | fuel + 1, n + 1 => beBytesFuel fuel ((n + 1) / 256) ++ [(n + 1) % 256]

/-- Minimal big-endian byte rendering of a natural number. -/
def beBytes (n : ℕ) : List ℕ := beBytesFuel n n

/-- Number of significant bits of a single byte value. -/
def bitsOf (b : ℕ) : ℕ :=
  if b = 0 then 0 else if b < 2 then 1 else if b < 4 then 2
  else if b < 8 then 3 else if b < 16 then 4 else if b < 32 then 5
  else if b < 64 then 6 else if b < 128 then 7 else 8

/-- Bit length of a natural number, via its minimal byte rendering. -/
def mpiBits (n : ℕ) : ℕ :=
  match beBytes n with
  | [] => 0
  | b :: rest => bitsOf b + 8 * rest.length

/-- Modelled from the spec: the OpenPGP MPI wire encoding (two-byte
big-endian bit count followed by the big-endian magnitude), the
length-prefixed big-integer value used elsewhere in the protocol
(`type/mpi` is not part of the sources). -/
def mpiWrite (n : ℕ) : List ℕ :=
  [mpiBits n / 256, mpiBits n % 256] ++ beBytes n

/-- Modelled from the spec: reading one MPI value off a byte stream (the
form `verify` expects its `msg_MPIs` to have been parsed from). -/
def mpiRead (bs : List ℕ) : Option (ℕ × List ℕ) :=
  match bs with
  | b0 :: b1 :: rest =>
    let bits := b0 * 256 + b1
    let len := (bits + 7) / 8
    if rest.length < len then none
    else some ((rest.take len).foldl (fun a b => a * 256 + b) 0, rest.drop len)
  | _ => none

/-- Least modular inverse (helper for the modelled DSA arithmetic). -/
def modInv (a n : ℕ) : ℕ :=
  ((List.range n).find? fun b => a * b % n = 1).getD 0

/-- Modelled from the spec: `publicKey.dsa.sign` (the big-integer DSA
primitive is an external collaborator): from the digest value `hv`, nonce
`k`, private exponent `x` and group `(p, q, g)` compute the pair `(r, s)`. -/
def dsaSignPair (hv k x p q g : ℕ) : ℕ × ℕ :=
  let r := (g ^ k % p) % q
  let s := modInv k q * (hv + x * r) % q
  (r, s)

/-- Modelled from the spec: `publicKey.dsa.verify` recomputes the
verification integer from `(r, s)`, the public value `y` and `(p, q, g)`. -/
def dsaVerifyInt (hv r s p q g y : ℕ) : ℕ :=
  let w := modInv s q
  let u1 := hv * w % q
  let u2 := r * w % q
  g ^ u1 * y ^ u2 % p % q

/-- `verify` for algorithm 17 in the source: valid iff the recomputed
integer equals the first signature MPI (`dopublic.compareTo(s1) === 0`). -/
def dsaVerifySrc (hv s1 s2 p q g y : ℕ) : Bool :=
  dsaVerifyInt hv s1 s2 p q g y = s1

/-- `sign` for algorithm 17 in the source:
`util.str2Uint8Array(result[0].toString() + result[1].toString())` — the
two integers are rendered as decimal text, concatenated, and returned as
the code points of that text. -/
def dsaSignSrc (hv k x p q g : ℕ) : List ℕ :=
  let rs := dsaSignPair hv k x p q g
  (Nat.repr rs.1 ++ Nat.repr rs.2).data.map Char.toNat

/-! ## RSA verification comparison (algorithms 1–3) -/

/-- Lower-case hexadecimal digit. -/
def hexDigit (n : ℕ) : Char :=
  "0123456789abcdef".data.getD n '?'

/-- Modelled from the spec: `util.hexidump` — two lower-case hex digits per
byte (the util module is not part of the sources; §9 calls it the
"hex-string rendering"). -/
def hexidump (bytes : List ℕ) : String :=
  String.mk (bytes.flatMap fun b => [hexDigit (b / 16 % 16), hexDigit (b % 16)])

/-- `publickey_MPIs[0].byteLength()`: bytes needed for the modulus. -/
def byteLength (n : ℕ) : ℕ :=
  (beBytes n).length

/-- Modelled from the spec: the EMSA-PKCS#1-v1.5 block
`0x00 0x01 (0xFF × padLen) 0x00 <DER prefix> <digest>` of total length
`emLen`, failing when `emLen` is too small (`pkcs1.emsa.encode` is not part
of the sources; the digest and DER prefix of the external hash are taken as
parameters). -/
def emsaBlock (derPfx digest : List ℕ) (emLen : ℕ) : Option (List ℕ) :=
  let tLen := derPfx.length + digest.length
  if emLen < tLen + 11 then none
  else some ([0, 1] ++ List.replicate (emLen - tLen - 3) 255 ++ [0] ++ derPfx ++ digest)

/-- The spec's block rendered as the hex string the source compares
against (`EM2 = pkcs1.emsa.encode(hash_algo, data, k)`). -/
def emsaEncodeHex (derPfx digest : List ℕ) (emLen : ℕ) : Option String :=
  (emsaBlock derPfx digest emLen).map hexidump

/-- Modelled from the spec: `RSA_RAW.verify(m, [n, e])` — the raw RSA
public-exponent transform of the signature integer, rendered as the
minimal big-endian byte array of the external big-integer library. -/
def rsaRawVerify (s n e : ℕ) : List ℕ :=
  beBytes (s ^ e % n)

/-- `verify` for algorithms 1–3 in the source:
`util.hexidump(EM) === EM2` — a comparison of hex strings, not of
fixed-width byte blocks. -/
def rsaVerifySrc (s n e : ℕ) (derPfx digest : List ℕ) : Option Bool :=
  (emsaEncodeHex derPfx digest (byteLength n)).map fun em2 =>
    hexidump (rsaRawVerify s n e) == em2

/-- Left-pad a byte array with zeros to width `k`. -/
def padTo (k : ℕ) (bs : List ℕ) : List ℕ :=
  List.replicate (k - bs.length) 0 ++ bs

/-- The comparison the claim describes: the raw output and the EMSA block
compared as fixed-width byte blocks of the key's byte length. -/
def rsaVerifySpec (s n e : ℕ) (derPfx digest : List ℕ) : Option Bool :=
  (emsaBlock derPfx digest (byteLength n)).map fun blk =>
    padTo (byteLength n) (rsaRawVerify s n e) == blk

/-- The concrete RSA modulus of the C2 failing input. -/
def nC2 : ℕ := 2 ^ 95

/-- The concrete signature value of the C2 failing input: the integer whose
raw transform (with `e = 1`) is exactly the EMSA block for an empty DER
prefix and the 1-byte digest `0xAB` at width 12. -/
def sC2 : ℕ := 0x0001FFFFFFFFFFFFFFFF00AB

/-! ## Properties of the normalization -/

theorem stripWsLf_sublist (l : List Char) : List.Sublist (stripWsLf l) l := by
  induction l with
  | nil => simp [stripWsLf]
  | cons c t ih =>
    simp only [stripWsLf]
    split
    · exact ih.trans (List.sublist_cons_self c t)
    · exact ih.cons₂ c

theorem cr_not_mem_stripCR (l : List Char) : '\r' ∉ stripCR l := by
  simp [stripCR]

theorem stripCR_lfToCrlf {l : List Char} (h : '\r' ∉ l) :
    stripCR (lfToCrlf l) = l := by
  induction l with
  | nil => rfl
  | cons c t ih =>
    simp only [List.mem_cons, not_or] at h
    have ht := ih h.2
    simp only [lfToCrlf, stripCR] at ht ⊢
    rw [List.flatMap_cons, List.filter_append, ht]
    by_cases hc : c = '\n'
    · subst hc; rfl
    · simp only [if_neg hc, List.filter_cons, List.filter_nil]
      have hcr : c ≠ '\r' := fun e => h.1 e.symm
      rw [if_pos (by simpa using hcr)]
      rfl

theorem stripWsLf_idem (l : List Char) :
    stripWsLf (stripWsLf l) = stripWsLf l := by
  induction l with
  | nil => rfl
  | cons c t ih =>
    simp only [stripWsLf]
    split
    · exact ih
    · rename_i hcond
      simp only [stripWsLf, ih]
      rw [if_neg (by simpa [ih] using hcond)]

theorem normalizeText_idem (s : String) :
    normalizeText (normalizeText s) = normalizeText s := by
  show String.mk (lfToCrlf (stripWsLf (stripCR
      (lfToCrlf (stripWsLf (stripCR s.data)))))) = _
  have hcr : '\r' ∉ stripWsLf (stripCR s.data) := fun hmem =>
    cr_not_mem_stripCR s.data ((stripWsLf_sublist _).mem hmem)
  rw [stripCR_lfToCrlf hcr, stripWsLf_idem]
  rfl

/-! ## C4: the concrete normalization example -/

/-- C4 counterexample: on the input `"a\r\nb \n c\r"` the constructor does
not produce the claimed `"a\r\nb\r\n c\r\n"`; the final bare carriage
return is stripped and no trailing CRLF is appended. -/
theorem C4_counterexample :
    (mkCleartextMessage "a\r\nb \n c\r" []).text ≠ "a\r\nb\r\n c\r\n" := by
  decide

/-- C4 (amended): constructing a `CleartextMessage` from `"a\r\nb \n c\r"`
stores the canonical text `"a\r\nb\r\n c"`: every carriage return is
stripped, trailing spaces/tabs before a line feed are stripped, and every
line feed becomes CRLF — but the final `" c"` (whose line ended in a bare
CR, not an LF) gains no trailing CRLF. -/
theorem C4_normalization_example :
    (mkCleartextMessage "a\r\nb \n c\r" []).text = "a\r\nb\r\n c" := by
  decide

/-! ## C10: idempotence of the constructor's normalization -/

/-- C10: the constructor's line-ending normalization is idempotent: the
stored canonical text of a `CleartextMessage` is a fixed point, so
constructing a new message from `m.text` stores exactly `m.text`. -/
theorem C10_normalization_idempotent (s : String)
    (sig0 sig1 : List SigPacket) :
    (mkCleartextMessage (mkCleartextMessage s sig0).text sig1).text
      = (mkCleartextMessage s sig0).text := by
  show normalizeText (normalizeText s) = normalizeText s
  exact normalizeText_idem s

/-! ## C9: signing returns a fresh message, nothing is mutated -/

/-- Characterization of a successful `signDetached` run: one signature per
private key, in input-key order, each built from that key's signing packet
with the configured hash algorithm. -/
theorem signDetached_ok_spec (cfgHash : ℕ)
    (oracle : SigningKeyPacket → String → ℕ) (text : String) :
    ∀ (keys : List Key) (sl : List SigPacket),
      signDetached cfgHash oracle text keys = .ok sl →
      sl.length = keys.length ∧
      ∀ (i : ℕ) (k : Key), keys[i]? = some k → ∃ kp,
        getSigningKeyPacket k none = some kp ∧ kp.isDecrypted = true ∧
        sl[i]? = some { signatureType := 1, hashAlgorithm := cfgHash,
                        publicKeyAlgorithm := kp.algorithm,
                        issuerKeyId := kp.keyId,
                        sigData := oracle kp text } := by
  intro keys
  induction keys with
  | nil =>
    intro sl h
    simp only [signDetached, Except.ok.injEq] at h
    subst h
    exact ⟨rfl, by intro i k hk; simp at hk⟩
  | cons k0 t ih =>
    intro sl h
    rw [signDetached] at h
    cases hone : signOneKey cfgHash oracle text k0 with
    | error e => rw [hone] at h; exact absurd h (by simp)
    | ok sp =>
      rw [hone] at h
      cases hrest : signDetached cfgHash oracle text t with
      | error e => rw [hrest] at h; exact absurd h (by simp)
      | ok rest =>
        rw [hrest] at h
        simp only [Except.ok.injEq] at h
        subst h
        obtain ⟨hlen, hidx⟩ := ih rest hrest
        have hsp : ∃ kp, getSigningKeyPacket k0 none = some kp ∧
            kp.isDecrypted = true ∧
            sp = { signatureType := 1, hashAlgorithm := cfgHash,
                   publicKeyAlgorithm := kp.algorithm, issuerKeyId := kp.keyId,
                   sigData := oracle kp text } := by
          rw [signOneKey] at hone
          split at hone
          · exact absurd hone (by simp)
          · split at hone
            · exact absurd hone (by simp)
            · split at hone
              · exact absurd hone (by simp)
              · rename_i kp hkp
                split at hone
                · exact absurd hone (by simp)
                · rename_i hdec
                  simp only [Except.ok.injEq] at hone
                  exact ⟨kp, hkp, by simpa using hdec, hone.symm⟩
        refine ⟨by simp [hlen], ?_⟩
        intro i k hk
        match i with
        | 0 =>
          simp only [List.getElem?_cons_zero, Option.some.injEq] at hk
          subst hk
          obtain ⟨kp, h1, h2, h3⟩ := hsp
          exact ⟨kp, h1, h2, by simp [h3]⟩
        | i + 1 =>
          simp only [List.getElem?_cons_succ] at hk ⊢
          exact hidx i k hk

/-- C9: `sign` returns a new message instance whose text is the receiver's
(already canonical) text and whose signature set is the freshly aggregated
list, one signature per input key in input order; in this functional model
of the source (which never assigns to `this` or to key material) the
receiving message and the keys are left untouched. -/
theorem C9_sign_returns_new_instance (cfgHash : ℕ)
    (oracle : SigningKeyPacket → String → ℕ) (m : CleartextMessage)
    (keys : List Key) (sl : List SigPacket)
    (hcanon : normalizeText m.text = m.text)
    (hok : signDetached cfgHash oracle m.text keys = .ok sl) :
    cleartextSign cfgHash oracle m keys
        = .ok { text := m.text, signature := sl } ∧
    sl.length = keys.length ∧
    (∀ (i : ℕ) (k : Key), keys[i]? = some k → ∃ kp,
      getSigningKeyPacket k none = some kp ∧ kp.isDecrypted = true ∧
      sl[i]? = some { signatureType := 1, hashAlgorithm := cfgHash,
                      publicKeyAlgorithm := kp.algorithm,
                      issuerKeyId := kp.keyId,
                      sigData := oracle kp m.text }) := by
  obtain ⟨hlen, hidx⟩ := signDetached_ok_spec cfgHash oracle m.text keys sl hok
  refine ⟨?_, hlen, hidx⟩
  simp [cleartextSign, hok, Except.map, mkCleartextMessage, hcanon]

/-- Witness for C9 at a concrete decrypted private key. -/
theorem C9_witness :
    cleartextSign 8 (fun _ _ => 42) ⟨"ab", []⟩ [⟨false, true, [⟨17, true, 9⟩]⟩]
      = .ok { text := "ab", signature := [⟨1, 8, 17, 9, 42⟩] } :=
  (C9_sign_returns_new_instance 8 (fun _ _ => 42) ⟨"ab", []⟩
    [⟨false, true, [⟨17, true, 9⟩]⟩] [⟨1, 8, 17, 9, 42⟩] (by decide) (by rfl)).1

/-! ## C8: tri-state verification outcome and order preservation -/

/-- C8: `verifyDetached` yields exactly one result per signature, at the
same index as its signature (input order is preserved); when no supplied
key has a signing-key packet matching the signature's issuer key id, the
result's validity is the `unknown` state `none`, which is distinct from
`some false`; producing it never aborts the other signatures. -/
theorem C8_unknown_when_no_key (oracle : SigPacket → SigningKeyPacket → Bool)
    (sigs : List SigPacket) (keys : List Key) :
    (verifyDetached oracle sigs keys).length = sigs.length ∧
    ∀ (i : ℕ) (sig : SigPacket), sigs[i]? = some sig →
      (verifyDetached oracle sigs keys)[i]? = some
        { keyid := sig.issuerKeyId,
          valid := (findIssuerKeyPacket keys sig.issuerKeyId).map
            fun kp => oracle sig kp,
          sigpackets := [sig] } ∧
      (findIssuerKeyPacket keys sig.issuerKeyId = none →
        (verifyDetached oracle sigs keys)[i]? = some
          { keyid := sig.issuerKeyId, valid := none, sigpackets := [sig] } ∧
        (none : Option Bool) ≠ some false) := by
  refine ⟨List.length_map _ _, ?_⟩
  intro i sig hsig
  constructor
  · simp [verifyDetached, List.getElem?_map, hsig]
  · intro hnone
    refine ⟨?_, by simp⟩
    simp [verifyDetached, List.getElem?_map, hsig, hnone]

/-- Witness for C8: a signature whose issuer matches no supplied key gets
validity `none`. -/
theorem C8_witness :
    (verifyDetached (fun _ _ => false) [⟨1, 8, 1, 5, 0⟩] [])[0]? = some
      { keyid := 5, valid := none, sigpackets := [⟨1, 8, 1, 5, 0⟩] } :=
  (((C8_unknown_when_no_key (fun _ _ => false) [⟨1, 8, 1, 5, 0⟩] []).2
    0 ⟨1, 8, 1, 5, 0⟩ (by rfl)).2 (by rfl)).1

/-! ## C7: the armor `Hash` header -/

/-- C7 counterexample: a message whose only signature packet uses MD5
(hash id 1) armors with `Hash: SHA256` — the header names only the
configured default hash algorithm and does not name the algorithm the
attached signature references. -/
theorem C7_counterexample :
    cleartextArmor (fun _ => []) 8 ⟨"hi", [⟨1, 1, 17, 5, 0⟩]⟩
        = .ok ⟨2, "SHA256", "hi", []⟩ ∧
    (⟨"hi", [⟨1, 1, 17, 5, 0⟩]⟩ : CleartextMessage).signature.map
        (fun p => p.hashAlgorithm) = [1] ∧
    (hashNameOfId 1).map upperStr = some "MD5" ∧
    hasSub "MD5".data "SHA256".data = false := by
  refine ⟨by rfl, by rfl, by rfl, by decide⟩

/-- C7 (amended): armoring produces a block of type "signed" (tag 2) whose
`Hash` header names exactly the configured default hash algorithm in upper
case — not the set of algorithms referenced by the attached signature
packets — together with the canonical text and the externally serialized
signature packets as payload. -/
theorem C7_armor_header_is_config_default
    (pw : List SigPacket → List ℕ) (cfgHash : ℕ) (nm : String)
    (m : CleartextMessage) (h : hashNameOfId cfgHash = some nm) :
    cleartextArmor pw cfgHash m
      = .ok ⟨2, upperStr nm, m.text, pw m.signature⟩ := by
  simp [cleartextArmor, h]

/-- Witness for C7 at the default configuration (SHA-256). -/
theorem C7_witness :
    cleartextArmor (fun _ => [7]) 8 ⟨"t", []⟩ = .ok ⟨2, "SHA256", "t", [7]⟩ := by
  have h := C7_armor_header_is_config_default (fun _ => [7]) 8 "sha256" ⟨"t", []⟩ (by rfl)
  simpa using h

/-! ## C1: DSA signature serialization -/

/-- C1: the DSA branch of `sign` is broken with respect to `verify` and to
its own documented return type.  At the concrete key
`(p, q, g, y, x) = (23, 11, 4, 18, 3)` with digest value 5 and nonce 7 the
DSA pair is `(r, s) = (8, 1)` and the group equations do round-trip
(`dsaVerifySrc` accepts the pair), but `sign` returns the code points of
the decimal text `"81"` — `[56, 49]` — which is not the MPI serialization
`mpiWrite 8 ++ mpiWrite 1` of the pair and cannot even be parsed as an MPI
sequence, so its output cannot be consumed by `verify` as the `(r, s)`
multiprecision-integer pair. -/
theorem C1_dsa_sign_encoding_bug :
    dsaSignPair 5 7 3 23 11 4 = (8, 1) ∧
    dsaVerifySrc 5 8 1 23 11 4 18 = true ∧
    dsaSignSrc 5 7 3 23 11 4 = [56, 49] ∧
    mpiRead (dsaSignSrc 5 7 3 23 11 4) = none ∧
    dsaSignSrc 5 7 3 23 11 4 ≠ mpiWrite 8 ++ mpiWrite 1 := by
  refine ⟨by decide, by decide, by decide, by decide, by decide⟩

/-! ## C2: the RSA verification comparison -/

/-- C2: RSA verification in the source compares variable-length hex
strings, not fixed-width byte blocks.  At the concrete input
`s = sC2, n = 2^95, e = 1` (key byte length 12) the raw transform is the
EMSA block itself, whose most significant byte is zero; the minimal-byte
rendering drops that zero, the hex comparison fails, and the source
rejects a signature that the fixed-width byte-block comparison required by
the claim accepts. -/
theorem C2_hex_comparison_truncates_leading_zero :
    rsaVerifySrc sC2 nC2 1 [] [171] = some false ∧
    rsaVerifySpec sC2 nC2 1 [] [171] = some true ∧
    rsaRawVerify sC2 nC2 1
      = [1, 255, 255, 255, 255, 255, 255, 255, 255, 0, 171] ∧
    emsaBlock [] [171] (byteLength nC2)
      = some [0, 1, 255, 255, 255, 255, 255, 255, 255, 255, 0, 171] := by
  refine ⟨by decide, by decide, by decide, by decide⟩


/-! ## C5: radix-64 round trip -/

theorem b64idx_newline (u : Bool) : b64idx u '\n' = none := by
  cases u <;> decide

theorem b64idx_pad (u : Bool) : b64idx u '=' = none := by
  cases u <;> decide

theorem b64idx_charAt (u : Bool) : ∀ v < 64, b64idx u (b64charAt u v) = some v := by
  cases u <;> decide

theorem r2sGo_newline (u : Bool) (t : List Char) (s a : ℕ) :
    r2sGo u ('\n' :: t) s a = r2sGo u t s a := by
  simp [r2sGo, b64idx_newline]

theorem r2sGo_pad (u : Bool) (t : List Char) (s a : ℕ) :
    r2sGo u ('=' :: t) s a = r2sGo u t s a := by
  simp [r2sGo, b64idx_pad]

theorem r2sGo_nlIf (u : Bool) (l : ℕ) (t : List Char) (s a : ℕ) :
    r2sGo u (nlIf u l ++ t) s a = r2sGo u t s a := by
  rw [nlIf]
  split
  · rw [List.cons_append, List.nil_append, r2sGo_newline]
  · rw [List.nil_append]

theorem r2sGo_charAt_s0 (u : Bool) {v : ℕ} (hv : v < 64) (t : List Char) (a : ℕ) :
    r2sGo u (b64charAt u v :: t) 0 a = r2sGo u t 2 ((v <<< 2) &&& 255) := by
  simp [r2sGo, b64idx_charAt u v hv]
  simp only [show (2 : ℕ) &&& 7 = 2 from by decide, show (4 : ℕ) &&& 7 = 4 from by decide,
    show (6 : ℕ) &&& 7 = 6 from by decide]

theorem r2sGo_charAt_s2 (u : Bool) {v : ℕ} (hv : v < 64) (t : List Char) (a : ℕ) :
    r2sGo u (b64charAt u v :: t) 2 a
      = (a ||| ((v >>> 4) &&& 255)) :: r2sGo u t 4 ((v <<< 4) &&& 255) := by
  simp [r2sGo, b64idx_charAt u v hv]
  simp only [show (2 : ℕ) &&& 7 = 2 from by decide, show (4 : ℕ) &&& 7 = 4 from by decide,
    show (6 : ℕ) &&& 7 = 6 from by decide]

theorem r2sGo_charAt_s4 (u : Bool) {v : ℕ} (hv : v < 64) (t : List Char) (a : ℕ) :
    r2sGo u (b64charAt u v :: t) 4 a
      = (a ||| ((v >>> 2) &&& 255)) :: r2sGo u t 6 ((v <<< 6) &&& 255) := by
  simp [r2sGo, b64idx_charAt u v hv]
  simp only [show (2 : ℕ) &&& 7 = 2 from by decide, show (4 : ℕ) &&& 7 = 4 from by decide,
    show (6 : ℕ) &&& 7 = 6 from by decide]

theorem r2sGo_charAt_s6 (u : Bool) {v : ℕ} (hv : v < 64) (t : List Char) (a : ℕ) :
    r2sGo u (b64charAt u v :: t) 6 a
      = (a ||| (v &&& 255)) :: r2sGo u t 0 (v &&& 255) := by
  simp [r2sGo, b64idx_charAt u v hv]
  simp only [show (8 : ℕ) &&& 7 = 0 from by decide, Nat.shiftLeft_zero]

set_option maxRecDepth 100000

theorem bits_shift_split_byte0 : ∀ c < 256, ((((c >>> 2) &&& 63) <<< 2) &&& 255) |||
    ((((c &&& 3) <<< 4) >>> 4) &&& 255) = c := by decide

theorem bits_hi_of_join : ∀ x < 4, ∀ y < 16,
    (((x <<< 4) ||| y) >>> 4) &&& 255 = x := by decide

theorem bits_byte0_direct : ∀ c < 256,
    ((((c >>> 2) &&& 63) <<< 2) &&& 255) ||| (c &&& 3) = c := by decide

theorem bits_shift_forget_hi : ∀ x < 4, ∀ y < 16,
    (((x <<< 4) ||| y) <<< 4) &&& 255 = (y <<< 4) &&& 255 := by decide

theorem bits_unshift2 : ∀ w < 16, ((w <<< 2) >>> 2) &&& 255 = w := by decide

theorem bits_byte1_direct : ∀ c < 256,
    ((((c >>> 4) &&& 15) <<< 4) &&& 255) ||| (c &&& 15) = c := by decide

theorem bits_mid_of_join : ∀ w < 16, ∀ z < 4,
    (((w <<< 2) ||| z) >>> 2) &&& 255 = w := by decide

theorem bits_shift_forget_mid : ∀ w < 16, ∀ z < 4,
    (((w <<< 2) ||| z) <<< 6) &&& 255 = (z <<< 6) &&& 255 := by decide

theorem bits_byte2_direct : ∀ c < 256,
    ((((c >>> 6) &&& 3) <<< 6) &&& 255) ||| ((c &&& 63) &&& 255) = c := by decide

theorem and_lt_64 (x m : ℕ) (hm : m < 64) : x &&& m < 64 :=
  Nat.and_lt_two_pow x (n := 6) (by omega)

theorem and_lt_16 (x m : ℕ) (hm : m < 16) : x &&& m < 16 :=
  Nat.and_lt_two_pow x (n := 4) (by omega)

theorem and_lt_4 (x m : ℕ) (hm : m < 4) : x &&& m < 4 :=
  Nat.and_lt_two_pow x (n := 2) (by omega)

theorem shl4_lt_64 {x : ℕ} (hx : x < 4) : x <<< 4 < 64 := by
  rw [Nat.shiftLeft_eq]; omega

theorem shl2_lt_64 {x : ℕ} (hx : x < 16) : x <<< 2 < 64 := by
  rw [Nat.shiftLeft_eq]; omega

theorem lor_lt_64 {x y : ℕ} (hx : x < 64) (hy : y < 64) : x ||| y < 64 :=
  Nat.or_lt_two_pow (n := 6) (by omega) (by omega)

/-- Generalized round trip: decoding the encoder's output from a fresh
group boundary recovers the bytes, for any initial wrap counter, any stale
encoder accumulator and any stale decoder accumulator. -/
theorem r2s_s2r_go (u : Bool) : ∀ (b : List ℕ), (∀ x ∈ b, x < 256) →
    ∀ (a0 l d : ℕ), r2sGo u (s2rGo u b a0 l 0) 0 d = b
  | [], _, a0, l, d => by
    simp [s2rGo, s2rTail, r2sGo]
  | [c0], h, a0, l, d => by
    have hc0 : c0 < 256 := h c0 (by simp)
    have hv0 : (c0 >>> 2) &&& 63 < 64 := and_lt_64 _ _ (by omega)
    have ha1 : (c0 &&& 3) <<< 4 < 64 := shl4_lt_64 (and_lt_4 _ _ (by omega))
    simp only [s2rGo, s2rTail, reduceIte, Nat.lt_irrefl, Nat.zero_lt_one,
      if_true, if_false, List.cons_append, List.nil_append, List.append_assoc,
      Nat.one_ne_zero, true_and]
    rw [r2sGo_charAt_s0 u hv0, r2sGo_nlIf, r2sGo_charAt_s2 u ha1]
    rw [bits_shift_split_byte0 c0 hc0]
    rw [r2sGo_nlIf]
    cases u with
    | true => simp [r2sGo]
    | false =>
      simp only [Bool.false_eq_true, if_false, if_true, ite_true, ite_false,
        List.cons_append, List.nil_append]
      rw [r2sGo_pad, r2sGo_nlIf, r2sGo_pad]
      simp [r2sGo]
  | [c0, c1], h, a0, l, d => by
    have hc0 : c0 < 256 := h c0 (by simp)
    have hc1 : c1 < 256 := h c1 (by simp)
    have hv0 : (c0 >>> 2) &&& 63 < 64 := and_lt_64 _ _ (by omega)
    have hx : c0 &&& 3 < 4 := and_lt_4 _ _ (by omega)
    have hy : (c1 >>> 4) &&& 15 < 16 := and_lt_16 _ _ (by omega)
    have hv1 : ((c0 &&& 3) <<< 4) ||| ((c1 >>> 4) &&& 15) < 64 :=
      lor_lt_64 (shl4_lt_64 hx) (by omega)
    have hw : c1 &&& 15 < 16 := and_lt_16 _ _ (by omega)
    have ha2 : (c1 &&& 15) <<< 2 < 64 := shl2_lt_64 hw
    simp only [s2rGo, s2rTail, reduceIte, Nat.zero_lt_one, if_true, if_false,
      List.cons_append, List.nil_append, List.append_assoc, Nat.one_ne_zero,
      true_and, Nat.zero_lt_two, Nat.succ_ne_zero, OfNat.ofNat_ne_zero,
      OfNat.ofNat_ne_one]
    rw [r2sGo_charAt_s0 u hv0, r2sGo_nlIf, r2sGo_charAt_s2 u hv1, r2sGo_nlIf,
      r2sGo_charAt_s4 u ha2]
    rw [bits_hi_of_join _ hx _ hy, bits_byte0_direct c0 hc0,
      bits_shift_forget_hi _ hx _ hy, bits_unshift2 _ hw,
      bits_byte1_direct c1 hc1]
    rw [r2sGo_nlIf]
    cases u with
    | true => simp [r2sGo]
    | false =>
      simp only [Bool.false_eq_true, if_false, if_true, ite_true, ite_false,
        false_and, List.cons_append, List.nil_append, List.append_nil]
      rw [r2sGo_pad]
      simp [r2sGo]
  | c0 :: c1 :: c2 :: t, h, a0, l, d => by
    have hc0 : c0 < 256 := h c0 (by simp)
    have hc1 : c1 < 256 := h c1 (by simp)
    have hc2 : c2 < 256 := h c2 (by simp)
    have ht : ∀ x ∈ t, x < 256 := fun x hx => h x (by simp [hx])
    have hv0 : (c0 >>> 2) &&& 63 < 64 := and_lt_64 _ _ (by omega)
    have hx : c0 &&& 3 < 4 := and_lt_4 _ _ (by omega)
    have hy : (c1 >>> 4) &&& 15 < 16 := and_lt_16 _ _ (by omega)
    have hv1 : ((c0 &&& 3) <<< 4) ||| ((c1 >>> 4) &&& 15) < 64 :=
      lor_lt_64 (shl4_lt_64 hx) (by omega)
    have hw : c1 &&& 15 < 16 := and_lt_16 _ _ (by omega)
    have hz : (c2 >>> 6) &&& 3 < 4 := and_lt_4 _ _ (by omega)
    have hv2 : ((c1 &&& 15) <<< 2) ||| ((c2 >>> 6) &&& 3) < 64 :=
      lor_lt_64 (shl2_lt_64 hw) (by omega)
    have hv3 : c2 &&& 63 < 64 := and_lt_64 _ _ (by omega)
    simp only [s2rGo, reduceIte, Nat.zero_lt_one, if_true, if_false,
      List.cons_append, List.nil_append, List.append_assoc, Nat.one_ne_zero,
      true_and, OfNat.ofNat_ne_zero, OfNat.ofNat_ne_one]
    rw [r2sGo_charAt_s0 u hv0, r2sGo_nlIf, r2sGo_charAt_s2 u hv1, r2sGo_nlIf,
      r2sGo_charAt_s4 u hv2, r2sGo_nlIf, r2sGo_charAt_s6 u hv3, r2sGo_nlIf]
    rw [bits_hi_of_join _ hx _ hy, bits_byte0_direct c0 hc0,
      bits_shift_forget_hi _ hx _ hy, bits_mid_of_join _ hw _ hz,
      bits_byte1_direct c1 hc1, bits_shift_forget_mid _ hw _ hz,
      bits_byte2_direct c2 hc2]
    rw [r2s_s2r_go u t ht _ _ _]

/-- C5: for every byte sequence, decoding the radix-64 encoding with the
same `urlSafe` flag returns the original bytes, for both the standard and
the URL-safe variant. -/
theorem C5_radix64_round_trip (u : Bool) (b : List ℕ) (h : ∀ x ∈ b, x < 256) :
    r2s (s2r b u) u = b :=
  r2s_s2r_go u b h 0 0 0

/-- Witness for C5 on a concrete byte sequence, both variants. -/
theorem C5_witness :
    r2s (s2r [0, 77, 255, 10] false) false = [0, 77, 255, 10] ∧
    r2s (s2r [0, 77, 255, 10] true) true = [0, 77, 255, 10] :=
  ⟨C5_radix64_round_trip false [0, 77, 255, 10] (by decide),
   C5_radix64_round_trip true [0, 77, 255, 10] (by decide)⟩


/-! ## C6: line wrapping and padding of the standard encoding -/


theorem b64charAt_ne (u : Bool) (v : ℕ) {c : Char}
    (hq : c ≠ '?') (h1 : c ∉ b64s) (h2 : c ∉ b64u) : b64charAt u v ≠ c := by
  intro he
  rw [b64charAt, List.getD_eq_getElem?_getD] at he
  cases hg : (if u then b64u else b64s)[v]? with
  | none => rw [hg] at he; exact hq (by simpa using he.symm)
  | some x =>
    rw [hg] at he
    simp only [Option.getD_some] at he
    subst he
    have hmem := List.getElem?_mem hg
    cases u with
    | true => exact h2 (by simpa using hmem)
    | false => exact h1 (by simpa using hmem)

theorem nl_not_b64s : '\n' ∉ b64s := by decide
theorem nl_not_b64u : '\n' ∉ b64u := by decide
theorem pad_not_b64s : '=' ∉ b64s := by decide
theorem pad_not_b64u : '=' ∉ b64u := by decide

theorem b64charAt_ne_nl (u : Bool) (v : ℕ) : b64charAt u v ≠ '\n' :=
  b64charAt_ne u v (by decide) nl_not_b64s nl_not_b64u

theorem b64charAt_ne_pad (u : Bool) (v : ℕ) : b64charAt u v ≠ '=' :=
  b64charAt_ne u v (by decide) pad_not_b64s pad_not_b64u

theorem dataChars_mem_ne (u : Bool) :
    ∀ (b : List ℕ) (a s : ℕ), ∀ c ∈ dataChars u b a s, c ≠ '\n' ∧ c ≠ '='
  | [], a, s => by
    rw [dataChars]
    split
    · simp
    · intro c hc
      simp only [List.mem_singleton] at hc
      subst hc
      exact ⟨b64charAt_ne_nl u a, b64charAt_ne_pad u a⟩
  | x :: t, a, s => by
    rw [dataChars]
    split
    · intro c hc
      rcases List.mem_cons.mp hc with he | hm
      · subst he; exact ⟨b64charAt_ne_nl u _, b64charAt_ne_pad u _⟩
      · exact dataChars_mem_ne u t _ _ c hm
    · split
      · intro c hc
        rcases List.mem_cons.mp hc with he | hm
        · subst he; exact ⟨b64charAt_ne_nl u _, b64charAt_ne_pad u _⟩
        · exact dataChars_mem_ne u t _ _ c hm
      · intro c hc
        rcases List.mem_cons.mp hc with he | hm
        · subst he; exact ⟨b64charAt_ne_nl u _, b64charAt_ne_pad u _⟩
        · rcases List.mem_cons.mp hm with he' | hm'
          · subst he'; exact ⟨b64charAt_ne_nl u _, b64charAt_ne_pad u _⟩
          · exact dataChars_mem_ne u t _ _ c hm'

theorem s2rGo_true_closed : ∀ (b : List ℕ) (a l s : ℕ),
    s2rGo true b a l s = dataChars true b a s
  | [], a, l, s => by
    rw [s2rGo, s2rTail, dataChars]
    simp [nlIf]
    rcases Nat.eq_zero_or_pos s with h | h
    · simp [h]
    · simp [h, Nat.pos_iff_ne_zero.mp h]
  | c :: t, a, l, s => by
    rw [s2rGo, dataChars]
    by_cases h0 : s = 0
    · simp [h0, nlIf, s2rGo_true_closed t]
    · by_cases h1 : s = 1 <;>
        simp [h0, h1, nlIf, s2rGo_true_closed t]



theorem trailingPad_congr {m m' : ℕ} (h : m % 3 = m' % 3) :
    trailingPad m = trailingPad m' := by
  rw [trailingPad, trailingPad, h]

theorem s2rGo_false_closed : ∀ (b : List ℕ) (a l s : ℕ), s ≤ 2 →
    s2rGo false b a l s
      = withNl l (countedChars false b a s) ++ trailingPad (s + b.length)
  | [], a, l, s => by
    intro hs
    interval_cases s
    · simp [s2rGo, s2rTail, countedChars, withNl, trailingPad]
    · simp only [s2rGo, s2rTail, countedChars, withNl, trailingPad, nlIf]
      norm_num
      simp only [show l + 1 + 1 = l + 2 from by omega]
      by_cases h1 : (l + 1) % 60 = 0 <;> by_cases h2 : (l + 2) % 60 = 0 <;>
        simp [h1, h2]
    · simp only [s2rGo, s2rTail, countedChars, withNl, trailingPad, nlIf]
      norm_num
  | c :: t, a, l, s => by
    intro hs
    interval_cases s
    · have ih := s2rGo_false_closed t ((c &&& 3) <<< 4) (l + 1) 1 (by omega)
      rw [s2rGo, countedChars]
      simp only [reduceIte, ih, nlIf, and_true, eq_self_iff_true]
      rw [trailingPad_congr
        (show (1 + t.length) % 3 = (0 + (c :: t).length) % 3 from by simp; omega)]
      by_cases h1 : (l + 1) % 60 = 0 <;> simp [withNl, h1]
    · have ih := s2rGo_false_closed t ((c &&& 15) <<< 2) (l + 1) 2 (by omega)
      rw [s2rGo, countedChars]
      simp only [reduceIte, ih, nlIf, and_true, eq_self_iff_true, Nat.one_ne_zero]
      rw [trailingPad_congr
        (show (2 + t.length) % 3 = (1 + (c :: t).length) % 3 from by simp; omega)]
      by_cases h1 : (l + 1) % 60 = 0 <;> simp [withNl, h1]
    · have ih := s2rGo_false_closed t a (l + 2) 0 (by omega)
      rw [s2rGo, countedChars]
      simp only [reduceIte, ih, nlIf, and_true, eq_self_iff_true,
        Nat.succ_ne_zero, OfNat.ofNat_ne_zero, OfNat.ofNat_ne_one, if_false]
      rw [trailingPad_congr
        (show (0 + t.length) % 3 = (2 + (c :: t).length) % 3 from by simp; omega)]
      by_cases h1 : (l + 1) % 60 = 0 <;> by_cases h2 : (l + 2) % 60 = 0 <;>
        simp [withNl, h1, h2, show l + 1 + 1 = l + 2 from by omega]

theorem countedChars_eq_data : ∀ (b : List ℕ) (a s : ℕ), s ≤ 2 →
    countedChars false b a s
      = dataChars false b a s ++ (if (s + b.length) % 3 = 1 then ['='] else [])
  | [], a, s => by
    intro hs
    interval_cases s <;> simp [countedChars, dataChars]
  | c :: t, a, s => by
    intro hs
    interval_cases s
    · have ih := countedChars_eq_data t ((c &&& 3) <<< 4) 1 (by omega)
      rw [countedChars, dataChars]
      simp only [reduceIte, ih]
      simp only [show (1 + t.length) % 3 = (0 + (c :: t).length) % 3 from by
        simp; omega]
      simp
    · have ih := countedChars_eq_data t ((c &&& 15) <<< 2) 2 (by omega)
      rw [countedChars, dataChars]
      simp only [reduceIte, ih, Nat.one_ne_zero]
      simp only [show (2 + t.length) % 3 = (1 + (c :: t).length) % 3 from by
        simp; omega]
      simp
    · have ih := countedChars_eq_data t a 0 (by omega)
      rw [countedChars, dataChars]
      simp only [reduceIte, ih, Nat.succ_ne_zero, OfNat.ofNat_ne_zero,
        OfNat.ofNat_ne_one, if_false]
      simp only [show (0 + t.length) % 3 = (2 + (c :: t).length) % 3 from by
        simp; omega]
      simp

theorem filter_withNl : ∀ (cs : List Char) (l : ℕ), (∀ c ∈ cs, c ≠ '\n') →
    (withNl l cs).filter (· ≠ '\n') = cs
  | [], l, _ => rfl
  | c :: t, l, h => by
    have hc : c ≠ '\n' := h c (by simp)
    have ih := filter_withNl t (l + 1) (fun x hx => h x (by simp [hx]))
    rw [withNl]
    by_cases h60 : (l + 1) % 60 = 0
    · simp only [h60, if_true, List.filter_cons]
      simp [hc]
      simpa using ih
    · simp only [h60, if_false, List.filter_cons]
      simp [hc]
      simpa using ih

theorem dataChars_len : ∀ (b : List ℕ) (a : ℕ),
    (dataChars false b a 0).length + (padOf (b.length % 3)).length
      = 4 * ((b.length + 2) / 3)
  | [], a => by simp [dataChars, padOf]
  | [c0], a => by simp [dataChars, padOf]
  | [c0, c1], a => by simp [dataChars, padOf]
  | c0 :: c1 :: c2 :: t, a => by
    have ih := dataChars_len t ((c1 &&& 15) <<< 2)
    simp only [dataChars, reduceIte, List.length_cons, Nat.one_ne_zero,
      Nat.succ_ne_zero, OfNat.ofNat_ne_zero, OfNat.ofNat_ne_one, if_false] at ih ⊢
    simp only [show (t.length + 1 + 1 + 1) % 3 = t.length % 3 from by omega]
    omega


theorem splitNl_shape : ∀ cs : List Char, ∃ h rs, splitNl cs = h :: rs
  | [] => ⟨[], [], rfl⟩
  | c :: t => by
    obtain ⟨h, rs, he⟩ := splitNl_shape t
    rw [splitNl]
    by_cases hc : c = '\n'
    · exact ⟨[], splitNl t, by simp [hc]⟩
    · exact ⟨c :: h, rs, by simp [hc, he]⟩

theorem withNl_lens : ∀ (cs : List Char) (l : ℕ), (∀ c ∈ cs, c ≠ '\n') →
    (splitNl (withNl l cs)).map List.length = buildLens cs.length (60 - l % 60)
  | [], l, _ => by
    rw [withNl, buildLens]
    have hl : l % 60 < 60 := Nat.mod_lt _ (by omega)
    rw [dif_pos (Or.inl (by simp only [List.length_nil]; omega))]
    simp [splitNl]
  | c :: t, l, h => by
    have hc : c ≠ '\n' := h c (by simp)
    have ih := withNl_lens t (l + 1) (fun x hx => h x (by simp [hx]))
    have hl : l % 60 < 60 := Nat.mod_lt _ (by omega)
    rw [withNl]
    by_cases h60 : (l + 1) % 60 = 0
    · have hl59 : l % 60 = 59 := by omega
      rw [h60] at ih
      norm_num at ih
      simp only [h60, if_true]
      simp only [splitNl, hc, if_false, if_pos rfl, reduceIte]
      simp only [List.map_cons, List.length_cons, List.length_nil]
      rw [ih]
      rw [show (60 : ℕ) - l % 60 = 1 from by omega]
      conv_rhs => rw [buildLens]
      rw [dif_neg (by omega)]
      norm_num
    · have h60' : (l + 1) % 60 = l % 60 + 1 := by omega
      rw [h60'] at ih
      simp only [h60, if_false]
      obtain ⟨hh, rs, he⟩ := splitNl_shape (withNl (l + 1) t)
      rw [splitNl]
      simp only [hc, if_false, he]
      rw [he] at ih
      simp only [List.map_cons, List.length_cons] at ih ⊢
      rw [buildLens] at ih
      rw [buildLens]
      by_cases hA : t.length < 60 - (l % 60 + 1) ∨ 60 - (l % 60 + 1) = 0
      · rw [dif_pos hA] at ih
        simp only [List.cons.injEq] at ih
        obtain ⟨ih1, ih2⟩ := ih
        rw [dif_pos (Or.inl (by omega))]
        simp only [List.cons.injEq]
        exact ⟨by omega, ih2⟩
      · rw [dif_neg hA] at ih
        simp only [List.cons.injEq] at ih
        obtain ⟨ih1, ih2⟩ := ih
        rw [dif_neg (by omega)]
        simp only [List.cons.injEq]
        refine ⟨by omega, ?_⟩
        rw [ih2]
        congr 1
        omega

theorem buildLens_ne_nil (n r : ℕ) : buildLens n r ≠ [] := by
  rw [buildLens]
  split <;> simp

theorem buildLens_dropLast (n : ℕ) :
    ∀ x ∈ (buildLens n 60).dropLast, x = 60 := by
  induction n using Nat.strong_induction_on with
  | _ n ih =>
    rw [buildLens]
    by_cases hA : n < 60 ∨ (60 : ℕ) = 0
    · rw [dif_pos hA]; simp
    · rw [dif_neg hA]
      rw [List.dropLast_cons_of_ne_nil (buildLens_ne_nil _ _)]
      intro x hx
      rcases List.mem_cons.mp hx with he | hm
      · exact he
      · exact ih (n - 60) (by omega) x hm

theorem buildLens_le : ∀ (n r : ℕ), 1 ≤ r → r ≤ 60 →
    ∀ x ∈ buildLens n r, x ≤ 60 := by
  intro n
  induction n using Nat.strong_induction_on with
  | _ n ih =>
    intro r h1 h60 x hx
    rw [buildLens] at hx
    by_cases hA : n < r ∨ r = 0
    · rw [dif_pos hA] at hx
      simp at hx
      omega
    · rw [dif_neg hA] at hx
      rcases List.mem_cons.mp hx with he | hm
      · omega
      · exact ih (n - r) (by omega) 60 (by omega) (by omega) x hm

theorem buildLens_last_lt : ∀ (n r : ℕ), 1 ≤ r → r ≤ 60 →
    ∀ m, (buildLens n r).getLast? = some m → m < 60 := by
  intro n
  induction n using Nat.strong_induction_on with
  | _ n ih =>
    intro r h1 h60 m hm
    rw [buildLens] at hm
    by_cases hA : n < r ∨ r = 0
    · rw [dif_pos hA] at hm
      simp at hm
      omega
    · rw [dif_neg hA] at hm
      rw [List.getLast?_cons] at hm
      cases hL : (buildLens (n - r) 60).getLast? with
      | none =>
        exact absurd (List.getLast?_eq_none_iff.mp hL) (buildLens_ne_nil _ _)
      | some k =>
        rw [hL] at hm
        simp only [Option.getD_some, Option.some.injEq] at hm
        subst hm
        exact ih (n - r) (by omega) 60 (by omega) (by omega) k hL


theorem incLast_ne_nil : ∀ L : List ℕ, incLast L ≠ []
  | [] => by simp [incLast]
  | [x] => by simp [incLast]
  | x :: y :: t => by simp [incLast]

theorem splitNl_append_single {c : Char} (hc : c ≠ '\n') :
    ∀ cs : List Char,
      (splitNl (cs ++ [c])).map List.length
        = incLast ((splitNl cs).map List.length)
  | [] => by simp [splitNl, hc, incLast]
  | x :: xs => by
    have ih := splitNl_append_single hc xs
    by_cases hx : x = '\n'
    · subst hx
      obtain ⟨h, rs, he⟩ := splitNl_shape xs
      obtain ⟨H, Rs, hE⟩ := splitNl_shape (xs ++ [c])
      rw [List.cons_append, splitNl, if_pos rfl]
      conv_rhs => rw [splitNl, if_pos rfl]
      rw [he, hE] at ih ⊢
      simp only [List.map_cons, incLast] at ih ⊢
      rw [ih]
    · obtain ⟨h, rs, he⟩ := splitNl_shape xs
      obtain ⟨H, Rs, hE⟩ := splitNl_shape (xs ++ [c])
      rw [List.cons_append, splitNl]
      simp only [hx, if_false, hE]
      conv_rhs => rw [splitNl]
      simp only [hx, if_false, he]
      rw [he, hE] at ih
      simp only [List.map_cons] at ih ⊢
      cases rs with
      | nil =>
        simp only [List.map_nil, incLast] at ih ⊢
        simp only [List.cons.injEq] at ih
        obtain ⟨ih1, ih2⟩ := ih
        have : Rs = [] := List.map_eq_nil_iff.mp ih2
        subst this
        simp [List.length_cons, ih1, incLast]
      | cons r0 rs' =>
        simp only [List.map_cons, incLast] at ih ⊢
        simp only [List.cons.injEq] at ih
        obtain ⟨ih1, ih2⟩ := ih
        simp [List.length_cons, ih1, ih2, incLast]

theorem incLast_dropLast : ∀ L : List ℕ, L ≠ [] →
    (incLast L).dropLast = L.dropLast
  | [], h => absurd rfl h
  | [x], _ => by simp [incLast]
  | x :: y :: t, _ => by
    have ih := incLast_dropLast (y :: t) (by simp)
    rw [incLast]
    rw [List.dropLast_cons_of_ne_nil (incLast_ne_nil (y :: t))]
    rw [List.dropLast_cons_of_ne_nil (by simp : (y :: t) ≠ [])]
    rw [ih]

theorem incLast_getLast : ∀ L : List ℕ, ∀ m, L.getLast? = some m →
    (incLast L).getLast? = some (m + 1)
  | [], m, hm => by simp at hm
  | [x], m, hm => by
    simp only [List.getLast?_singleton, Option.some.injEq] at hm
    subst hm
    simp [incLast]
  | x :: y :: t, m, hm => by
    rw [List.getLast?_cons_cons] at hm
    have ih := incLast_getLast (y :: t) m hm
    rw [incLast, List.getLast?_cons, ih]
    rfl

theorem mem_dropLast_or_last : ∀ (L : List ℕ) (x : ℕ), x ∈ L →
    x ∈ L.dropLast ∨ L.getLast? = some x
  | [], x, hx => by simp at hx
  | [a], x, hx => by
    simp only [List.mem_singleton] at hx
    subst hx
    exact Or.inr (by simp)
  | a :: b :: t, x, hx => by
    rcases List.mem_cons.mp hx with he | hm
    · subst he
      exact Or.inl (by rw [List.dropLast_cons_of_ne_nil (by simp)]; simp)
    · rcases mem_dropLast_or_last (b :: t) x hm with h | h
      · exact Or.inl (by rw [List.dropLast_cons_of_ne_nil (by simp)]; simp [h])
      · exact Or.inr (by rw [List.getLast?_cons_cons]; exact h)



theorem s2r_false_decomp (b : List ℕ) :
    (s2r b false).data
      = withNl 0 (countedChars false b 0 0) ++ trailingPad b.length := by
  show s2rGo false b 0 0 0 = _
  rw [s2rGo_false_closed b 0 0 0 (by omega), Nat.zero_add]

theorem countedChars_noNl (b : List ℕ) (a s : ℕ) (hs : s ≤ 2) :
    ∀ c ∈ countedChars false b a s, c ≠ '\n' := by
  rw [countedChars_eq_data b a s hs]
  intro c hc
  rcases List.mem_append.mp hc with h | h
  · exact (dataChars_mem_ne false b a s c h).1
  · by_cases hp : (s + b.length) % 3 = 1
    · rw [if_pos hp] at h
      simp only [List.mem_singleton] at h
      subst h
      decide
    · rw [if_neg hp] at h
      simp at h

theorem s2r_lens (b : List ℕ) :
    (splitNl (s2r b false).data).map List.length
      = (if b.length % 3 = 0 then
          buildLens (countedChars false b 0 0).length 60
        else incLast (buildLens (countedChars false b 0 0).length 60)) := by
  have hnoNl := countedChars_noNl b 0 0 (by omega)
  have hwl := withNl_lens (countedChars false b 0 0) 0 hnoNl
  norm_num at hwl
  rw [s2r_false_decomp b, trailingPad]
  by_cases h3 : b.length % 3 = 0
  · rw [if_pos h3, if_pos h3, List.append_nil, hwl]
  · rw [if_neg h3, if_neg h3]
    rw [splitNl_append_single (by decide) (withNl 0 (countedChars false b 0 0))]
    rw [hwl]

/-- C6: line wrapping and padding of the radix-64 encoder.  For the
standard variant, the armored body splits at `'\n'` into lines of exactly
60 characters (every line except the last), padding `'='` counting toward
the 60, and no line ever exceeding 60; the non-newline characters are the
data characters followed by `'='` padding to a multiple of 4 — none for a
full final 3-byte group, one `'='` when 2 input bytes remain, two `'='`
when 1 remains; the URL-safe variant emits no line breaks and no
padding. -/
theorem C6_line_wrapping_and_padding (b : List ℕ) :
    (∀ line ∈ (splitNl (s2r b false).data).dropLast, line.length = 60) ∧
    (∀ line ∈ splitNl (s2r b false).data, line.length ≤ 60) ∧
    (s2r b false).data.filter (· ≠ '\n')
      = dataChars false b 0 0 ++ padOf (b.length % 3) ∧
    (∀ c ∈ dataChars false b 0 0, c ≠ '\n' ∧ c ≠ '=') ∧
    ((s2r b false).data.filter (· ≠ '\n')).length = 4 * ((b.length + 2) / 3) ∧
    (∀ c ∈ (s2r b true).data, c ≠ '\n' ∧ c ≠ '=') := by
  have hnoNl := countedChars_noNl b 0 0 (by omega)
  have hlens := s2r_lens b
  have h_i : ∀ line ∈ (splitNl (s2r b false).data).dropLast, line.length = 60 := by
    intro line hline
    have hmem : line.length ∈ ((splitNl (s2r b false).data).map List.length).dropLast := by
      rw [← List.map_dropLast]
      exact List.mem_map_of_mem _ hline
    rw [hlens] at hmem
    by_cases h3 : b.length % 3 = 0
    · rw [if_pos h3] at hmem
      exact buildLens_dropLast _ _ hmem
    · rw [if_neg h3] at hmem
      rw [incLast_dropLast _ (buildLens_ne_nil _ _)] at hmem
      exact buildLens_dropLast _ _ hmem
  have h_ii : ∀ line ∈ splitNl (s2r b false).data, line.length ≤ 60 := by
    intro line hline
    have hmem : line.length ∈ (splitNl (s2r b false).data).map List.length :=
      List.mem_map_of_mem _ hline
    rw [hlens] at hmem
    by_cases h3 : b.length % 3 = 0
    · rw [if_pos h3] at hmem
      exact buildLens_le _ 60 (by omega) (by omega) _ hmem
    · rw [if_neg h3] at hmem
      rcases mem_dropLast_or_last _ _ hmem with h | h
      · rw [incLast_dropLast _ (buildLens_ne_nil _ _)] at h
        have := buildLens_dropLast _ _ h
        omega
      · cases hL : (buildLens (countedChars false b 0 0).length 60).getLast? with
        | none =>
          exact absurd (List.getLast?_eq_none_iff.mp hL) (buildLens_ne_nil _ _)
        | some m =>
          have hlast := incLast_getLast _ m hL
          rw [hlast] at h
          simp only [Option.some.injEq] at h
          have := buildLens_last_lt _ 60 (by omega) (by omega) m hL
          omega
  have h_iii : (s2r b false).data.filter (· ≠ '\n')
      = dataChars false b 0 0 ++ padOf (b.length % 3) := by
    rw [s2r_false_decomp b, List.filter_append, filter_withNl _ 0 hnoNl]
    rw [countedChars_eq_data b 0 0 (by omega), Nat.zero_add, trailingPad]
    have h3 : b.length % 3 = 0 ∨ b.length % 3 = 1 ∨ b.length % 3 = 2 := by omega
    rcases h3 with h | h | h <;>
      simp [h, padOf, List.filter_cons]
  refine ⟨h_i, h_ii, h_iii, fun c hc => dataChars_mem_ne false b 0 0 c hc, ?_, ?_⟩
  · rw [h_iii, List.length_append]
    exact dataChars_len b 0
  · show ∀ c ∈ s2rGo true b 0 0 0, c ≠ '\n' ∧ c ≠ '='
    rw [s2rGo_true_closed b 0 0 0]
    exact fun c hc => dataChars_mem_ne true b 0 0 c hc


/-! ## C3: armor header consistency rules -/

theorem parseAllHeaders_error_of_mem : ∀ (headers : List String) (h : String),
    h ∈ headers → findHashCapture h.data = none →
    ∃ e, parseAllHeaders headers = .error e
  | [], h, hmem, _ => by simp at hmem
  | h0 :: t, h, hmem, hbad => by
    rw [parseAllHeaders]
    cases hp : parseOneHeader h0 with
    | error e => exact ⟨e, rfl⟩
    | ok ids =>
      rcases List.mem_cons.mp hmem with he | hm
      · subst he
        rw [parseOneHeader, hbad] at hp
        exact absurd hp (by simp)
      · obtain ⟨e, he⟩ := parseAllHeaders_error_of_mem t h hm hbad
        rw [he]
        exact ⟨e, rfl⟩

theorem verifyHeaders_ok (headers : List String) (pl : List Packet)
    (hok : verifyHeaders headers pl = .ok ()) :
    ∃ ids, parseAllHeaders headers = .ok ids ∧ checkHashAlgos pl ids = true := by
  rw [verifyHeaders] at hok
  cases hp : parseAllHeaders headers with
  | error e => rw [hp] at hok; simp at hok
  | ok ids =>
    rw [hp] at hok
    refine ⟨ids, rfl, ?_⟩
    by_cases h2 : checkHashAlgos pl ids = true
    · exact h2
    · exfalso
      by_cases h1 : ids.isEmpty = true ∧ checkHashAlgos pl [1] = false <;>
        simp [h1, h2] at hok <;> split at hok <;> simp at hok

theorem checkHashAlgos_mem {pl : List Packet} {ids : List ℕ}
    (h : checkHashAlgos pl ids = true) :
    ∀ p ∈ pl, p.tag = 2 → p.hashAlgorithm ∈ ids := by
  intro p hp htag
  rw [checkHashAlgos, List.all_eq_true] at h
  have hcontains := h p hp
  rw [htag] at hcontains
  simpa using hcontains

/-- C3 counterexample: the header line `"XHash: MD5"` is not a `Hash`
header line, yet `verifyHeaders` accepts it (the unanchored regular
expression `/Hash: (.+)/` matches in the middle of the line), so a header
line other than `Hash` does not cause the read to fail. -/
theorem C3_counterexample :
    isPfx "Hash:".data "XHash: MD5".data = false ∧
    verifyHeaders ["XHash: MD5"] [⟨2, 1⟩] = .ok () := by
  exact ⟨by decide, by rfl⟩

/-- C3 (amended): with no header lines, a successful read implies every
signature packet uses MD5; when `Hash` lists parse to a nonempty id set, a
successful read implies every signature packet's hash algorithm is in that
set; and a header line in which the substring `"Hash: "` does not occur
(followed by at least one character) makes the read fail.  (As stated the
claim is false only in its last part: a header line merely *containing*
`"Hash: "` — e.g. `"XHash: MD5"` — is accepted.) -/
theorem C3_header_rules_amended (headers : List String) (pl : List Packet) :
    (verifyHeaders headers pl = .ok () →
      (headers = [] → ∀ p ∈ pl, p.tag = 2 → p.hashAlgorithm = 1) ∧
      (∀ ids, parseAllHeaders headers = .ok ids → ids ≠ [] →
        ∀ p ∈ pl, p.tag = 2 → p.hashAlgorithm ∈ ids)) ∧
    (∀ h ∈ headers, findHashCapture h.data = none →
      verifyHeaders headers pl ≠ .ok ()) := by
  constructor
  · intro hok
    constructor
    · intro hnil p hp htag
      subst hnil
      obtain ⟨ids, hids, hcheck⟩ := verifyHeaders_ok [] pl hok
      have hids0 : ids = [] := by
        rw [parseAllHeaders] at hids
        simpa using hids.symm
      subst hids0
      have := checkHashAlgos_mem hcheck p hp htag
      simp at this
    · intro ids hids _ p hp htag
      obtain ⟨ids', hids', hcheck⟩ := verifyHeaders_ok headers pl hok
      rw [hids] at hids'
      have : ids = ids' := by simpa using hids'
      subst this
      exact checkHashAlgos_mem hcheck p hp htag
  · intro h hmem hbad hok
    obtain ⟨e, he⟩ := parseAllHeaders_error_of_mem headers h hmem hbad
    rw [verifyHeaders, he] at hok
    simp at hok

/-- Witness for C3 at a concrete accepted header/signature pair. -/
theorem C3_witness : (Packet.mk 2 8).hashAlgorithm ∈ [8] :=
  ((C3_header_rules_amended ["Hash: SHA256"] [⟨2, 8⟩]).1 (by rfl)).2 [8] (by rfl)
    (by decide) ⟨2, 8⟩ (by decide) (by rfl)


/-- Witness for C6 at a concrete byte sequence. -/
theorem C6_witness :
    ((s2r [1, 2, 3, 4] false).data.filter (· ≠ '\n')
      = dataChars false [1, 2, 3, 4] 0 0 ++ padOf ([1, 2, 3, 4].length % 3)) ∧
    ((s2r [1, 2, 3, 4] false).data.filter (· ≠ '\n')).length
      = 4 * (([1, 2, 3, 4].length + 2) / 3) ∧
    ('A' ≠ '\n' ∧ 'A' ≠ '=') :=
  ⟨(C6_line_wrapping_and_padding [1, 2, 3, 4]).2.2.1,
   (C6_line_wrapping_and_padding [1, 2, 3, 4]).2.2.2.2.1,
   (C6_line_wrapping_and_padding [1, 2, 3, 4]).2.2.2.2.2 'A' (by decide)⟩

end OpenPGP
